import Mathlib

/-!
Shallow embedding of the core of `access-log-exporter`:
the metric engine (`internal/metric`), its configuration records
(`internal/config/types.go`) and the syslog datagram listener
(`internal/syslog/syslog.go`), together with proofs of the behavioural
claims about them.

Program strings are modelled as `List Char`; `float64` values carried by
the metrics are modelled as rationals (`ℚ`); the external collaborators
(Go's `strconv.ParseFloat`, the `uap-go` user-agent parser and the
`regexp` engine) appear as abstract function parameters.
-/

namespace AccessLog

/-- Program strings, modelled as character lists. -/
abbrev Str := List Char

/-- Convert a Lean string literal to the program-string model. -/
def str (s : String) : Str := s.data

/-- Whitespace test used by `strings.TrimSpace`
(restricted to the ASCII whitespace the log format can contain). -/
def ws (c : Char) : Bool :=
  c = ' ' ∨ c = '\t' ∨ c = '\n' ∨ c = '\r' ∨ c = '\x0b' ∨ c = '\x0c'

/-- Drop trailing whitespace. -/
def trimRight : Str → Str
  | [] => []
  | c :: rest =>
    let r := trimRight rest
    if r = [] ∧ ws c then [] else c :: r

/-- `strings.TrimSpace`: drop leading and trailing whitespace. -/
def trim (s : Str) : Str := trimRight (s.dropWhile ws)

/-- `strings.IndexByte(value, ',')`, presented structurally: the part before
the first comma, and the part after it when a comma exists. -/
def breakComma : Str → Str × Option Str
  | [] => ([], none)
  | c :: rest =>
    if c = ',' then ([], some rest)
    else (c :: (breakComma rest).1, (breakComma rest).2)

theorem breakComma_length (s a : Str) (r : Str)
    (h : breakComma s = (a, some r)) : a.length + 1 + r.length = s.length := by
  induction s generalizing a r with
  | nil => simp [breakComma] at h
  | cons c rest ih =>
    by_cases hc : c = ','
    · simp only [breakComma, if_pos hc, Prod.mk.injEq, Option.some.injEq] at h
      obtain ⟨ha, hr⟩ := h
      subst ha
      subst hr
      simp [Nat.add_comm]
    · simp only [breakComma, if_neg hc, Prod.mk.injEq] at h
      obtain ⟨ha, hr⟩ := h
      subst ha
      have hrest : breakComma rest = ((breakComma rest).1, some r) := by
        rw [← hr]
      have := ih (breakComma rest).1 r hrest
      simp only [List.length_cons]
      omega

theorem breakComma_some_lt (s a : Str) (r : Str)
    (h : breakComma s = (a, some r)) : r.length < s.length := by
  have := breakComma_length s a r h
  omega

/-- Splitting on commas (`strings.Split(s, ",")`). -/
def splitComma : Str → List Str
  | [] => [[]]
  | c :: rest =>
    if c = ',' then [] :: splitComma rest
    else
      match splitComma rest with
      | [] => [[c]]
      | e :: es => (c :: e) :: es

theorem splitComma_ne_nil (s : Str) : splitComma s ≠ [] := by
  cases s with
  | nil => simp [splitComma]
  | cons c rest =>
    simp only [splitComma]
    by_cases hc : c = ','
    · simp [hc]
    · rw [if_neg hc]
      cases splitComma rest <;> simp

theorem splitComma_breakComma (s : Str) :
    splitComma s =
      match breakComma s with
      | (a, none) => [a]
      | (a, some r) => a :: splitComma r := by
  induction s with
  | nil => rfl
  | cons c rest ih =>
    by_cases hc : c = ','
    · simp [splitComma, breakComma, hc]
    · simp only [splitComma, breakComma, if_neg hc]
      cases hbc : breakComma rest with
      | mk a ro =>
        cases ro with
        | none =>
          rw [hbc] at ih
          simp only at ih
          rw [ih]
        | some r =>
          rw [hbc] at ih
          simp only at ih
          rw [ih]

theorem trimRight_idem (s : Str) : trimRight (trimRight s) = trimRight s := by
  induction s with
  | nil => rfl
  | cons c rest ih =>
    simp only [trimRight]
    by_cases h : trimRight rest = [] ∧ ws c
    · simp [if_pos h, trimRight]
    · rw [if_neg h]
      simp only [trimRight, ih]
      rw [if_neg h]

theorem dropWhile_head_false (p : Char → Bool) (l : Str) (c : Char) (t : Str)
    (h : l.dropWhile p = c :: t) : p c = false := by
  induction l with
  | nil => simp at h
  | cons a rest ih =>
    by_cases hp : p a
    · simp only [List.dropWhile_cons, hp, if_true] at h
      exact ih h
    · simp only [List.dropWhile_cons, hp, if_false] at h
      obtain ⟨hac, -⟩ := List.cons.injEq .. ▸ h
      subst hac
      simpa using hp

theorem trim_idem (s : Str) : trim (trim s) = trim s := by
  show trimRight ((trimRight (s.dropWhile ws)).dropWhile ws) = trimRight (s.dropWhile ws)
  have hdw : (trimRight (s.dropWhile ws)).dropWhile ws = trimRight (s.dropWhile ws) := by
    cases hA : s.dropWhile ws with
    | nil => simp [trimRight]
    | cons c t =>
      have hc : ws c = false := dropWhile_head_false ws s c t hA
      simp only [trimRight]
      by_cases h : trimRight t = [] ∧ ws c
      · simp [if_pos h]
      · rw [if_neg h]
        simp [List.dropWhile_cons, hc]
  rw [hdw, trimRight_idem]

/-- `strings.Contains(s, pat)`. -/
def containsSub (s pat : Str) : Bool :=
  s.tails.any (fun t => pat.isPrefixOf t)

theorem prefixOf_length_le (p l : Str) (h : p.isPrefixOf l = true) :
    p.length ≤ l.length := by
  induction p generalizing l with
  | nil => simp
  | cons c t ih =>
    cases l with
    | nil => simp [List.isPrefixOf] at h
    | cons d u =>
      simp only [List.isPrefixOf, Bool.and_eq_true, beq_iff_eq] at h
      have := ih u h.2
      simp only [List.length_cons]
      omega

/-- Worker for substring replacement with a non-empty pattern: replaces
every non-overlapping occurrence, scanning left to right (the first
argument is recursion fuel, adequate whenever it bounds the string
length). -/
def replaceAllSubF (pat rep : Str) : ℕ → Str → Str
  | 0, s => s
  | fuel + 1, s =>
    match s with
    | [] => []
    | c :: rest =>
      if pat ≠ [] ∧ pat.isPrefixOf (c :: rest) then
        rep ++ replaceAllSubF pat rep fuel ((c :: rest).drop pat.length)
      else c :: replaceAllSubF pat rep fuel rest

/-- Substring replacement worker at adequate fuel. -/
def replaceAllSubAux (pat rep s : Str) : Str :=
  replaceAllSubF pat rep s.length s

/-- `strings.Replacer` built from the single pair `(pat, rep)`
(see `strings.NewReplacer(*r.String, r.Replacement)`): replaces every
non-overlapping occurrence of `pat` by `rep`; an empty `pat` matches at
every position, inserting `rep` around every character. -/
def replaceAllSub (pat rep s : Str) : Str :=
  if pat = [] then rep ++ s.flatMap (fun c => c :: rep)
  else replaceAllSubAux pat rep s

/-- The element/remainder step of the comma walk
(`extractNextValue` in `internal/metric`). -/
def extractNextValue (value : Str) : Str × Str :=
  match breakComma value with
  | (a, some r) => (trim a, r)
  | (a, none) => (trim a, [])

/-- Fueled form of the element walk of `processCommaDelimitedValues`
(adequate whenever the fuel is at least the string length). -/
def walkElemsF : ℕ → Str → List Str
  | 0, value => [trim value]
  | fuel + 1, value =>
    match breakComma value with
    | (a, none) => [trim a]
    | (a, some r) => if r = [] then [trim a] else trim a :: walkElemsF fuel r

/-- The sequence of (already trimmed) elements visited by the loop in
`processCommaDelimitedValues`: repeatedly take the next element, stopping
as soon as the remainder is empty. -/
def walkElems (value : Str) : List Str :=
  walkElemsF value.length value

theorem walkElemsF_congr (fuel1 : ℕ) :
    ∀ (fuel2 : ℕ) (value : Str), value.length ≤ fuel1 → value.length ≤ fuel2 →
      walkElemsF fuel1 value = walkElemsF fuel2 value := by
  induction fuel1 with
  | zero =>
    intro fuel2 value h1 h2
    have : value = [] := List.length_eq_zero.mp (Nat.le_zero.mp h1)
    subst this
    cases fuel2 with
    | zero => rfl
    | succ g => rfl
  | succ f ih =>
    intro fuel2 value h1 h2
    cases fuel2 with
    | zero =>
      have : value = [] := List.length_eq_zero.mp (Nat.le_zero.mp h2)
      subst this
      rfl
    | succ g =>
      simp only [walkElemsF]
      cases hbc : breakComma value with
      | mk a ro =>
        cases ro with
        | none => rfl
        | some r =>
          dsimp only
          by_cases hr : r = []
          · simp [hr]
          · rw [if_neg hr, if_neg hr]
            have hlt := breakComma_some_lt value a r hbc
            have := ih g r (by omega) (by omega)
            rw [this]

theorem walkElems_eq (value : Str) :
    walkElems value =
      match breakComma value with
      | (a, none) => [trim a]
      | (a, some r) => if r = [] then [trim a] else trim a :: walkElems r := by
  show walkElemsF value.length value = _
  cases hn : value.length with
  | zero =>
    have : value = [] := List.length_eq_zero.mp hn
    subst this
    rfl
  | succ n =>
    simp only [walkElemsF]
    cases hbc : breakComma value with
    | mk a ro =>
      cases ro with
      | none => rfl
      | some r =>
        dsimp only
        by_cases hr : r = []
        · simp [hr]
        · rw [if_neg hr, if_neg hr]
          have hlt := breakComma_some_lt value a r hbc
          rw [walkElemsF_congr n r.length r (by omega) (by omega)]
          rfl

/-! ## Configuration data model (`internal/config/types.go`) -/

/-- Abstraction of a compiled `regexp.Regexp`: whether it matches anywhere in
a string, and `ReplaceAllString` applied with a template (capture-group
expansion is internal to the engine). -/
structure RegexAbs where
  rmatch : Str → Bool
  rreplaceAll : Str → Str → Str

/-- `config.Replacement`. In the program the `StringReplacer` field is
populated (as `strings.NewReplacer(*String, Replacement)`) exactly when
`String` is non-nil, so it is represented by `string?` alone. -/
structure Replacement where
  string? : Option Str
  regexp? : Option RegexAbs
  replacement : Str

/-- `config.Math`. -/
structure MathCfg where
  enabled : Bool
  mul : ℚ
  div : ℚ

/-- `config.Upstream`. -/
structure UpstreamCfg where
  excludes : List Str
  addrLineIndex : ℕ
  enabled : Bool
  label : Bool

/-- `config.Label`. -/
structure LabelCfg where
  name : Str
  replacements : List Replacement
  lineIndex : ℕ
  userAgent : Bool

/-- `config.Metric`. -/
structure MetricCfg where
  constLabels : List (Str × Str)
  valueIndex : Option ℕ
  name : Str
  type : Str
  help : Str
  buckets : List ℚ
  labels : List LabelCfg
  replacements : List Replacement
  upstream : UpstreamCfg
  math : MathCfg

/-- External collaborators used by `Metric.Parse`: `strconv.ParseFloat`
and the user-agent family lookup of `uap-go`. The rational codomain of
`parseFloat` covers exactly the finite values of `float64`; the real
`strconv.ParseFloat` additionally accepts `"NaN"` and `"±Inf"`, which
the `FVal` refinement further below models for the counter claim. -/
structure Env where
  parseFloat : Str → Option ℚ
  ua : Str → Str

/-! ## Replacement engine (`valueReplacements`, part_007 lines 762-778) -/

/-- Result of trying one replacement entry on a value, mirroring the two
guarded branches of the loop body in `valueReplacements`: the
string-replacer branch (guarded by `StringReplacer != nil &&
strings.Contains`), then the regexp branch (guarded by `Regexp != nil &&
MatchString`). `none` means the entry does not fire. -/
def entryResult? (r : Replacement) (v : Str) : Option Str :=
  match r.string? with
  | some s =>
    if containsSub v s then some (replaceAllSub s r.replacement v)
    else
      match r.regexp? with
      | some re => if re.rmatch v then some (re.rreplaceAll v r.replacement) else none
      | none => none
  | none =>
    match r.regexp? with
    | some re => if re.rmatch v then some (re.rreplaceAll v r.replacement) else none
    | none => none

/-- `(*Metric).valueReplacements`: first-match rewrite; returns the input
unchanged when no entry fires. -/
def valueReplacements : List Replacement → Str → Str
  | [], v => v
  | r :: rest, v =>
    match entryResult? r v with
    | some out => out
    | none => valueReplacements rest v

/-! ## Label maps and aggregate updates -/

/-- `prometheus.Labels`: a string-keyed map, modelled as an association
list without duplicate keys. -/
abbrev LabelMap := List (Str × Str)

/-- Map insertion (`labels[name] = value`). -/
def mapSet (k v : Str) : LabelMap → LabelMap
  | [] => [(k, v)]
  | (k', v') :: rest => if k' = k then (k, v) :: rest else (k', v') :: mapSet k v rest

/-- Map deletion (`delete(labels, k)`). -/
def mapDelete (k : Str) (m : LabelMap) : LabelMap :=
  m.filter (fun kv => kv.1 != k)

/-- `(*Metric).returnLabelsToPool`: the clearing loop
`for k := range labels { delete(labels, k) }` before the map is put back. -/
def returnLabelsToPool (m : LabelMap) : LabelMap :=
  m.foldl (fun acc kv => mapDelete kv.1 acc) m

/-- One mutation of the backing aggregate, tagged with the label-map
snapshot passed to `With(labels)` at that moment. -/
inductive Upd where
  | inc (labels : LabelMap)
  | add (labels : LabelMap) (v : ℚ)
  | set (labels : LabelMap) (v : ℚ)
  | observe (labels : LabelMap) (v : ℚ)
deriving DecidableEq

/-- Parse-time error kinds of `(*Metric).Parse` (the program carries them
as wrapped `error` strings). -/
inductive PErr where
  | indexOutOfRange
  | parseValue (value : Str)
  | negativeCounter
  | badType
deriving DecidableEq

/-! ## The metric engine (`internal/metric`, part_007 lines 291-778).
Each function returns the list of aggregate updates it performed (in
order) together with the error it returned, wrapped in an outer `Option`
whose `none` stands for an unguarded out-of-range slice access (a Go
panic); the safety claim proves `none` is never produced. -/

/-- `(*Metric).applyMathTransformations`. -/
def applyMathTransformations (cfg : MetricCfg) (value : ℚ) : ℚ :=
  if !cfg.math.enabled then value
  else
    let v1 := if cfg.math.div ≠ 0 then value / cfg.math.div else value
    if cfg.math.mul ≠ 0 then v1 * cfg.math.mul else v1

/-- `(*Metric).setMetricValue`: dispatch on the dynamic type of the backing
vector, which `New` makes equal to `cfg.Type`. -/
def setMetricValue (cfg : MetricCfg) (v : ℚ) (labels : LabelMap) :
    List Upd × Option PErr :=
  if cfg.type = str "counter" then
    if v < 0 then ([], some .negativeCounter) else ([Upd.add labels v], none)
  else if cfg.type = str "gauge" then ([Upd.set labels v], none)
  else if cfg.type = str "histogram" then ([Upd.observe labels v], none)
  else ([], some .badType)

/-- `(*Metric).setMetric`: trim, skip empties, parse the float, rescale,
dispatch. -/
def setMetric (env : Env) (cfg : MetricCfg) (value : Str) (labels : LabelMap) :
    List Upd × Option PErr :=
  let v := trim value
  if v = [] then ([], none)
  else
    match env.parseFloat v with
    | none => ([], some (.parseValue v))
    | some x => setMetricValue cfg (applyMathTransformations cfg x) labels

/-- `(*Metric).handleCounterIncrement`: the type assertion to
`*prometheus.CounterVec` succeeds exactly when the configured type is
`"counter"`. -/
def handleCounterIncrement (cfg : MetricCfg) (labels : LabelMap) :
    List Upd × Option PErr :=
  if cfg.type = str "counter" then ([Upd.inc labels], none)
  else ([], some .badType)

/-- `(*Metric).getUpstreamForValue`; the slice access is modelled with
`get?` (it would panic on an empty slice, which the caller rules out). -/
def getUpstreamForValue (upstreams : List Str) (valueIndex : ℕ) : Option Str :=
  let upstreamIndex :=
    if valueIndex ≥ upstreams.length then upstreams.length - 1 else valueIndex
  upstreams.get? upstreamIndex

/-- `(*Metric).isUpstreamExcluded`. -/
def isUpstreamExcluded (cfg : MetricCfg) (upstream : Str) : Bool :=
  !cfg.upstream.excludes.isEmpty && cfg.upstream.excludes.contains upstream

/-- `(*Metric).processValueWithUpstream`. -/
def processValueWithUpstream (env : Env) (cfg : MetricCfg) (valueElement : Str)
    (upstreams : List Str) (valueIndex : ℕ) (labels : LabelMap) :
    Option (LabelMap × List Upd × Option PErr) :=
  if upstreams = [] then some (labels, setMetric env cfg valueElement labels)
  else
    match getUpstreamForValue upstreams valueIndex with
    | none => none
    | some u =>
      if isUpstreamExcluded cfg u then some (labels, [], none)
      else
        let labels' := if cfg.upstream.label then mapSet (str "upstream") u labels else labels
        some (labels', setMetric env cfg valueElement labels')

/-- The loop body of `(*Metric).processCommaDelimitedValues`, running over
the walked element list: skip `"-"`, otherwise process the element and
abort on its error, threading the (mutated) label map. -/
def processElems (env : Env) (cfg : MetricCfg) (upstreams : List Str) :
    List Str → LabelMap → ℕ → Option (List Upd × Option PErr)
  | [], _, _ => some ([], none)
  | e :: rest, labels, i =>
    if e = ['-'] then processElems env cfg upstreams rest labels (i + 1)
    else
      match processValueWithUpstream env cfg e upstreams i labels with
      | none => none
      | some (_, us, some err) => some (us, some err)
      | some (labels', us, none) =>
        match processElems env cfg upstreams rest labels' (i + 1) with
        | none => none
        | some (us', err) => some (us ++ us', err)

/-- `(*Metric).processCommaDelimitedValues`. -/
def processCommaDelimitedValues (env : Env) (cfg : MetricCfg) (value : Str)
    (upstreams : List Str) (labels : LabelMap) : Option (List Upd × Option PErr) :=
  processElems env cfg upstreams (walkElems value) labels 0

/-- `(*Metric).parseUpstreams`: skipped entirely (returning a nil slice)
when neither excludes nor the upstream label need addresses. -/
def parseUpstreams (cfg : MetricCfg) (line : List Str) (lineLength : ℕ) :
    Option (Except PErr (List Str)) :=
  if cfg.upstream.excludes = [] ∧ cfg.upstream.label = false then some (.ok [])
  else if cfg.upstream.addrLineIndex ≥ lineLength then some (.error .indexOutOfRange)
  else
    match line.get? cfg.upstream.addrLineIndex with
    | none => none
    | some addrs => some (.ok ((splitComma addrs).map trim))

/-- `(*Metric).setMetricWithUpstream`. -/
def setMetricWithUpstream (env : Env) (cfg : MetricCfg) (line : List Str)
    (lineLength : ℕ) (value : Str) (labels : LabelMap) :
    Option (List Upd × Option PErr) :=
  match parseUpstreams cfg line lineLength with
  | none => none
  | some (.error e) => some ([], some e)
  | some (.ok upstreams) => processElems env cfg upstreams (walkElems value) labels 0

/-- `(*Metric).handleMetricValue`. -/
def handleMetricValue (env : Env) (cfg : MetricCfg) (line : List Str) (value : Str)
    (labels : LabelMap) : Option (List Upd × Option PErr) :=
  match cfg.valueIndex with
  | none => some (handleCounterIncrement cfg labels)
  | some _ =>
    if value = [] then some ([], none)
    else if cfg.upstream.enabled then
      setMetricWithUpstream env cfg line line.length value labels
    else some (setMetric env cfg value labels)

/-- `(*Metric).validateAndExtractValue`: emptiness guard, the
bounds-check-elimination access `line[lineLength-1]`, value-index bounds
check, sentinel skip, metric-level replacements. -/
def validateAndExtractValue (cfg : MetricCfg) (line : List Str) :
    Option (Except PErr (Str × Bool)) :=
  let n := line.length
  if n = 0 then some (.ok ([], true))
  else
    match line.get? 0 with
    | none => none
    | some f0 =>
      if f0 = [] then some (.ok ([], true))
      else
        match line.get? (n - 1) with
        | none => none
        | some _ =>
          match cfg.valueIndex with
          | none => some (.ok ([], false))
          | some vi =>
            if vi ≥ n then some (.error .indexOutOfRange)
            else
              match line.get? vi with
              | none => none
              | some value =>
                if value = [] ∨ value = ['-'] then some (.ok ([], true))
                else some (.ok (valueReplacements cfg.replacements value, false))

/-- The loop of `(*Metric).processLabels`. -/
def processLabelsGo (env : Env) (line : List Str) :
    List LabelCfg → LabelMap → Option (Except PErr LabelMap)
  | [], labels => some (.ok labels)
  | l :: rest, labels =>
    if l.lineIndex ≥ line.length then some (.error .indexOutOfRange)
    else
      match line.get? l.lineIndex with
      | none => none
      | some v0 =>
        let v1 := if l.userAgent then env.ua v0 else v0
        let v2 := valueReplacements l.replacements v1
        processLabelsGo env line rest (mapSet l.name v2 labels)

/-- `(*Metric).processLabels`. -/
def processLabels (env : Env) (cfg : MetricCfg) (line : List Str)
    (labels : LabelMap) : Option (Except PErr LabelMap) :=
  processLabelsGo env line cfg.labels labels

/-- `(*Metric).Parse`, with the label map the pool hands out made
explicit (`labels0`). -/
def parseWith (env : Env) (cfg : MetricCfg) (labels0 : LabelMap)
    (line : List Str) : Option (List Upd × Option PErr) :=
  match validateAndExtractValue cfg line with
  | none => none
  | some (.error e) => some ([], some e)
  | some (.ok (value, skip)) =>
    if skip then some ([], none)
    else
      match processLabels env cfg line labels0 with
      | none => none
      | some (.error e) => some ([], some e)
      | some (.ok labels) => handleMetricValue env cfg line value labels

/-- `(*Metric).Parse` as called in the program: the pooled label map is
empty (fresh maps are created empty, reused ones were cleared by
`returnLabelsToPool`). -/
def parse (env : Env) (cfg : MetricCfg) (line : List Str) :
    Option (List Upd × Option PErr) :=
  parseWith env cfg [] line

/-! ## Metric construction (`New`, part_007 lines 308-394) -/

/-- The backing collector chosen by `New`'s switch on `cfg.Type`; for a
histogram it records the bucket bounds handed to
`prometheus.NewHistogramVec`. -/
inductive CollectorKind where
  | counter
  | gauge
  | histogram (buckets : List ℚ)
deriving DecidableEq

/-- Result of a successful `New`. -/
structure MetricModel where
  labelKeys : List Str
  kind : CollectorKind
  userAgentEnabled : Bool
deriving DecidableEq

/-- `prometheus.DefBuckets`. -/
def defBuckets : List ℚ :=
  [5/1000, 1/100, 25/1000, 5/100, 1/10, 25/100, 5/10, 1, 5/2, 5, 10]

/-- The label loop of `New`: first empty label name aborts; label keys are
collected in declaration order; `userAgentEnabled` is the disjunction of
the `UserAgent` flags. -/
def buildLabelKeys : List LabelCfg → Except String (List Str × Bool)
  | [] => .ok ([], false)
  | l :: rest =>
    if l.name = [] then .error "metric label name cannot be empty"
    else
      match buildLabelKeys rest with
      | .error e => .error e
      | .ok (ks, uaEnabled) => .ok (l.name :: ks, l.userAgent || uaEnabled)

/-- Appending the `"upstream"` label key when `Upstream.Enabled` and
`Upstream.Label` are both set (the write to
`labelKeys[len(cfg.Labels)]` in `New`). -/
def newLabelKeys (cfg : MetricCfg) (ks : List Str) : List Str :=
  if cfg.upstream.enabled && cfg.upstream.label then ks ++ [str "upstream"] else ks

/-- `metric.New`. -/
def New (cfg : MetricCfg) : Except String MetricModel :=
  if cfg.name = [] then .error "metric name cannot be empty"
  else if cfg.valueIndex = none ∧ cfg.type ≠ str "counter" then
    .error "valueIndex must be set for non-counter metrics"
  else
    match buildLabelKeys cfg.labels with
    | .error e => .error e
    | .ok (ks, uaEnabled) =>
      if cfg.type = str "counter" then .ok ⟨newLabelKeys cfg ks, .counter, uaEnabled⟩
      else if cfg.type = str "gauge" then .ok ⟨newLabelKeys cfg ks, .gauge, uaEnabled⟩
      else if cfg.type = str "histogram" then
        .ok ⟨newLabelKeys cfg ks,
          .histogram (if cfg.buckets = [] then defBuckets else cfg.buckets), uaEnabled⟩
      else .error "unsupported metric type"

/-! ## Aggregated counter state over a run of Parse calls -/

/-- The updates a `Parse` call performs (panic-free runs only). -/
def parseUpdates (env : Env) (cfg : MetricCfg) (line : List Str) : List Upd :=
  match parse env cfg line with
  | some (us, _) => us
  | none => []

/-- All updates performed over a sequence of lines, in order. -/
def runLines (env : Env) (cfg : MetricCfg) (lines : List (List Str)) : List Upd :=
  (lines.map (parseUpdates env cfg)).flatten

/-- Contribution of one update to the counter sample keyed by label
tuple `L` (`Inc` adds one, `Add v` adds `v`; gauge/histogram updates do
not touch a counter). -/
def updAmount (L : LabelMap) : Upd → ℚ
  | .inc l => if l = L then 1 else 0
  | .add l v => if l = L then v else 0
  | .set _ _ => 0
  | .observe _ _ => 0

/-- Exposed value of the counter sample keyed by `L` after a list of
updates, starting from the zero registry. -/
def counterTotal (L : LabelMap) (us : List Upd) : ℚ :=
  (us.map (updAmount L)).sum

/-! ## Syslog listener receive loop (`internal/syslog/syslog.go`,
`Start`, lines 62-134). One datagram in, at most one published payload
out. -/

/-- The trailing-control-character trim
(`for ; (n > 0) && (msg[n-1] < 32); n-- {}`). -/
def trimTrailingCtl (msg : List UInt8) : List UInt8 :=
  (msg.reverse.dropWhile (fun b => b < 32)).reverse

/-- The colon-scanning loop of `Start`, fueled with the number of indices
left to visit: scan from index `i` with `colonCount` colons already seen;
at the third colon, yield its index, or the index of the following byte
when that byte is a space. -/
def findThirdColonIdxF (msg : List UInt8) : ℕ → ℕ → ℕ → Option ℕ
  | 0, _, _ => none
  | fuel + 1, i, colonCount =>
    if i < msg.length then
      if msg.getD i 0 = 58 then
        if colonCount + 1 = 3 then
          some (if i + 1 < msg.length ∧ msg.getD (i + 1) 0 = 32 then i + 1 else i)
        else findThirdColonIdxF msg fuel (i + 1) (colonCount + 1)
      else findThirdColonIdxF msg fuel (i + 1) colonCount
    else none

/-- The colon-scanning loop, started at index `i`; the fuel
`msg.length - i` is exact: it runs out precisely when `i` passes the end,
where the loop exits with no index found. -/
def findThirdColonIdx (msg : List UInt8) (i : ℕ) (colonCount : ℕ) : Option ℕ :=
  findThirdColonIdxF msg (msg.length - i) i colonCount

/-- One iteration of the receive loop on a successfully read datagram:
`none` means the datagram is discarded, `some payload` means `payload` is
published on the message channel. -/
def processDatagram (msg : List UInt8) : Option (List UInt8) :=
  if msg.length = 0 then none
  else if msg.getD 0 0 ≠ 60 then none
  else
    let t := trimTrailingCtl msg
    match findThirdColonIdx t 0 0 with
    | none => none
    | some idx => some (t.drop (idx + 1))

/-- Specification-side recursion: the bytes after the `k`-th colon of the
list (`none` when fewer than `k` colons occur). -/
def afterNthColon : ℕ → List UInt8 → Option (List UInt8)
  | _, [] => none
  | k, b :: rest =>
    if b = 58 then
      if k ≤ 1 then some rest else afterNthColon (k - 1) rest
    else afterNthColon k rest

/-- Specification-side space skip: drop one leading space when present. -/
def stripOneSpace : List UInt8 → List UInt8
  | 32 :: r => r
  | r => r

/-! ## Theorems -/

/-- C7: the math rescaling is the identity when `enabled` is false
(whatever `mul` and `div` are) and when `enabled` is true with
`div = 0` and `mul = 0`; when enabled it divides first (only when
`div ≠ 0`) and multiplies second (only when `mul ≠ 0`). -/
theorem math_rescaling_spec (cfg : MetricCfg) (v : ℚ) :
    (cfg.math.enabled = false → applyMathTransformations cfg v = v) ∧
    (cfg.math.enabled = true → cfg.math.div = 0 → cfg.math.mul = 0 →
      applyMathTransformations cfg v = v) ∧
    (cfg.math.enabled = true → cfg.math.div ≠ 0 → cfg.math.mul ≠ 0 →
      applyMathTransformations cfg v = v / cfg.math.div * cfg.math.mul) ∧
    (cfg.math.enabled = true → cfg.math.div ≠ 0 → cfg.math.mul = 0 →
      applyMathTransformations cfg v = v / cfg.math.div) ∧
    (cfg.math.enabled = true → cfg.math.div = 0 → cfg.math.mul ≠ 0 →
      applyMathTransformations cfg v = v * cfg.math.mul) := by
  refine ⟨?_, ?_, ?_, ?_, ?_⟩ <;> intro he
  · simp [applyMathTransformations, he]
  · intro hd hm
    simp [applyMathTransformations, he, hd, hm]
  · intro hd hm
    simp [applyMathTransformations, he, hd, hm]
  · intro hd hm
    simp [applyMathTransformations, he, hd, hm]
  · intro hd hm
    simp [applyMathTransformations, he, hd, hm]

/-- Concrete configuration used by the rescaling witness. -/
def mathWitnessCfg : MetricCfg where
  constLabels := []
  valueIndex := some 0
  name := str "m"
  type := str "gauge"
  help := []
  buckets := []
  labels := []
  replacements := []
  upstream := ⟨[], 0, false, false⟩
  math := ⟨true, 2, 4⟩

theorem math_rescaling_spec_witness :
    applyMathTransformations mathWitnessCfg 8 = 4 := by
  have h := (math_rescaling_spec mathWitnessCfg 8).2.2.1 rfl
    (by norm_num [mathWitnessCfg]) (by norm_num [mathWitnessCfg])
  rw [h]
  norm_num [mathWitnessCfg]

theorem get?_eq_some_getD {α : Type} (l : List α) (n : ℕ) (d : α)
    (h : n < l.length) : l.get? n = some (l.getD n d) := by
  rw [List.get?_eq_getElem?, List.getD_eq_getElem?_getD, List.getElem?_eq_getElem h]
  rfl

theorem foldl_mapDelete_nil (iter : LabelMap) :
    ∀ acc : LabelMap, (∀ kv ∈ acc, kv.1 ∈ iter.map Prod.fst) →
      iter.foldl (fun a kv => mapDelete kv.1 a) acc = [] := by
  induction iter with
  | nil =>
    intro acc h
    cases acc with
    | nil => rfl
    | cons x t => exact absurd (h x (List.mem_cons_self x t)) (by simp)
  | cons kv rest ih =>
    intro acc h
    simp only [List.foldl_cons]
    apply ih
    intro e he
    have heacc : e ∈ acc ∧ (e.1 != kv.1) = true := List.mem_filter.mp he
    have hkey := h e heacc.1
    simp only [List.map_cons, List.mem_cons] at hkey
    rcases hkey with h1 | h2
    · exact absurd h1 (by simpa using heacc.2)
    · exact h2

/-- C10: every labels map handed back by `returnLabelsToPool` is empty, so
each `Parse` call starts from an empty pooled labels map: running `Parse`
with a map recycled from any earlier line is the same as running it with
the empty map, and a leftover key can never reach a later line's label
tuple. -/
theorem labels_pool_reset :
    (∀ m : LabelMap, returnLabelsToPool m = []) ∧
    (∀ (env : Env) (cfg : MetricCfg) (prev : LabelMap) (line : List Str),
      parseWith env cfg (returnLabelsToPool prev) line = parse env cfg line) := by
  have hclr : ∀ m : LabelMap, returnLabelsToPool m = [] := by
    intro m
    exact foldl_mapDelete_nil m m (fun kv h => List.mem_map_of_mem Prod.fst h)
  refine ⟨hclr, fun env cfg prev line => ?_⟩
  rw [hclr prev]
  rfl

/-- C6: `Parse` returns Ok with no update on the empty line, on a line
whose first field is empty, and - when `value_index` is set and in
range - on a raw value equal to `""` or `"-"`. -/
theorem parse_skip_cases (env : Env) (cfg : MetricCfg) :
    (parse env cfg [] = some ([], none)) ∧
    (∀ line : List Str, line.get? 0 = some [] → parse env cfg line = some ([], none)) ∧
    (∀ (line : List Str) (vi : ℕ), cfg.valueIndex = some vi → vi < line.length →
      (line.getD vi [] = [] ∨ line.getD vi [] = ['-']) →
      parse env cfg line = some ([], none)) := by
  refine ⟨rfl, ?_, ?_⟩
  · intro line h
    cases line with
    | nil => simp [List.get?] at h
    | cons f0 rest =>
      simp only [List.get?, Option.some.injEq] at h
      subst h
      rfl
  · intro line vi hvi hlt hval
    cases line with
    | nil => simp at hlt
    | cons f0 rest =>
      by_cases hf0 : f0 = []
      · subst hf0
        rfl
      · have hn : (f0 :: rest).length ≠ 0 := by simp
        have hbce : (f0 :: rest).get? ((f0 :: rest).length - 1) =
            some ((f0 :: rest).getD ((f0 :: rest).length - 1) []) :=
          get?_eq_some_getD _ _ _ (by simp)
        have hvalacc : (f0 :: rest).get? vi = some ((f0 :: rest).getD vi []) :=
          get?_eq_some_getD _ _ _ hlt
        have hskip : validateAndExtractValue cfg (f0 :: rest) = some (.ok ([], true)) := by
          simp only [validateAndExtractValue, if_neg hn, List.get?, if_neg hf0, hbce,
            hvi, hvalacc]
          rw [if_neg (by omega), if_pos hval]
        show parseWith env cfg [] (f0 :: rest) = some ([], none)
        simp only [parseWith, hskip]
        rfl

/-- Environment used by witnesses: a float parser defined on a few digit
strings, and a user-agent normalizer that always answers "Other". -/
def wEnv : Env where
  parseFloat := fun s =>
    if s = str "1" then some 1
    else if s = str "2" then some 2
    else if s = str "3" then some 3
    else none
  ua := fun _ => str "Other"

/-- Gauge configuration with `value_index = 1` used by witnesses. -/
def wGaugeCfg : MetricCfg where
  constLabels := []
  valueIndex := some 1
  name := str "m"
  type := str "gauge"
  help := []
  buckets := []
  labels := []
  replacements := []
  upstream := ⟨[], 0, false, false⟩
  math := ⟨false, 0, 0⟩

theorem parse_skip_cases_witness :
    parse wEnv wGaugeCfg [str "a", str "-"] = some ([], none) :=
  (parse_skip_cases wEnv wGaugeCfg).2.2 [str "a", str "-"] 1 rfl (by decide) (by decide)

theorem buildLabelKeys_error_iff (ls : List LabelCfg) :
    (∃ e, buildLabelKeys ls = .error e) ↔ ∃ l ∈ ls, l.name = [] := by
  induction ls with
  | nil =>
    constructor
    · rintro ⟨e, he⟩
      exact Except.noConfusion he
    · rintro ⟨l, hl, -⟩
      simp at hl
  | cons l rest ih =>
    simp only [buildLabelKeys]
    by_cases h : l.name = []
    · rw [if_pos h]
      exact ⟨fun _ => ⟨l, List.mem_cons_self l rest, h⟩, fun _ => ⟨_, rfl⟩⟩
    · rw [if_neg h]
      cases hb : buildLabelKeys rest with
      | error e =>
        constructor
        · intro _
          obtain ⟨l', hl', hn⟩ := ih.mp ⟨e, hb⟩
          exact ⟨l', List.mem_cons_of_mem _ hl', hn⟩
        · intro _
          exact ⟨e, rfl⟩
      | ok p =>
        constructor
        · rintro ⟨e, he⟩
          exact Except.noConfusion he
        · rintro ⟨l', hl', hn⟩
          rcases List.mem_cons.mp hl' with rfl | hmem
          · exact absurd hn h
          · obtain ⟨e, he⟩ := ih.mpr ⟨l', hmem, hn⟩
            rw [hb] at he
            exact Except.noConfusion he

/-- C5: `New` fails exactly on an empty metric name, an empty label name,
a missing `value_index` for a non-counter kind, or an unknown kind
(replacement patterns reach `New` already compiled by the configuration
loader, so an invalid pattern cannot occur in its input); every other
specification constructs successfully, and a histogram uses the
configured buckets, or `prometheus.DefBuckets` when none are given. -/
theorem metric_construction_spec (cfg : MetricCfg) :
    (cfg.type = str "histogram" → ∀ m, New cfg = .ok m →
      m.kind = .histogram (if cfg.buckets = [] then defBuckets else cfg.buckets)) ∧
    ((∃ e, New cfg = .error e) ↔
      (cfg.name = [] ∨ (cfg.valueIndex = none ∧ cfg.type ≠ str "counter") ∨
        (∃ l ∈ cfg.labels, l.name = []) ∨
        (cfg.type ≠ str "counter" ∧ cfg.type ≠ str "gauge" ∧
          cfg.type ≠ str "histogram"))) := by
  by_cases hname : cfg.name = []
  · refine ⟨?_, ?_⟩
    · intro _ m hm
      rw [New, if_pos hname] at hm
      exact Except.noConfusion hm
    · rw [New, if_pos hname]
      exact ⟨fun _ => Or.inl hname, fun _ => ⟨_, rfl⟩⟩
  · by_cases hvi : cfg.valueIndex = none ∧ cfg.type ≠ str "counter"
    · refine ⟨?_, ?_⟩
      · intro _ m hm
        rw [New, if_neg hname, if_pos hvi] at hm
        exact Except.noConfusion hm
      · rw [New, if_neg hname, if_pos hvi]
        exact ⟨fun _ => Or.inr (Or.inl hvi), fun _ => ⟨_, rfl⟩⟩
    · cases hb : buildLabelKeys cfg.labels with
      | error e =>
        have hlab := buildLabelKeys_error_iff cfg.labels |>.mp ⟨e, hb⟩
        refine ⟨?_, ?_⟩
        · intro _ m hm
          rw [New, if_neg hname, if_neg hvi, hb] at hm
          exact Except.noConfusion hm
        · rw [New, if_neg hname, if_neg hvi, hb]
          exact ⟨fun _ => Or.inr (Or.inr (Or.inl hlab)), fun _ => ⟨_, rfl⟩⟩
      | ok p =>
        obtain ⟨ks, uaEnabled⟩ := p
        have hnolab : ¬ ∃ l ∈ cfg.labels, l.name = [] := by
          intro hl
          obtain ⟨e, he⟩ := buildLabelKeys_error_iff cfg.labels |>.mpr hl
          rw [hb] at he
          exact Except.noConfusion he
        have hNew : New cfg =
            (if cfg.type = str "counter" then
              .ok ⟨newLabelKeys cfg ks, .counter, uaEnabled⟩
            else if cfg.type = str "gauge" then
              .ok ⟨newLabelKeys cfg ks, .gauge, uaEnabled⟩
            else if cfg.type = str "histogram" then
              .ok ⟨newLabelKeys cfg ks,
                .histogram (if cfg.buckets = [] then defBuckets else cfg.buckets),
                uaEnabled⟩
            else .error "unsupported metric type") := by
          rw [New, if_neg hname, if_neg hvi, hb]
        by_cases hc : cfg.type = str "counter"
        · refine ⟨?_, ?_⟩
          · intro hh
            rw [hc] at hh
            exact absurd hh (by decide)
          · rw [hNew, if_pos hc]
            constructor
            · rintro ⟨e, he⟩
              exact Except.noConfusion he
            · rintro (h | h | h | h)
              · exact absurd h hname
              · exact absurd h hvi
              · exact absurd h hnolab
              · exact absurd hc h.1
        · by_cases hg : cfg.type = str "gauge"
          · refine ⟨?_, ?_⟩
            · intro hh
              rw [hg] at hh
              exact absurd hh (by decide)
            · rw [hNew, if_neg hc, if_pos hg]
              constructor
              · rintro ⟨e, he⟩
                exact Except.noConfusion he
              · rintro (h | h | h | h)
                · exact absurd h hname
                · exact absurd h hvi
                · exact absurd h hnolab
                · exact absurd hg h.2.1
          · by_cases hh : cfg.type = str "histogram"
            · refine ⟨?_, ?_⟩
              · intro _ m hm
                rw [hNew, if_neg hc, if_neg hg, if_pos hh] at hm
                cases hm
                rfl
              · rw [hNew, if_neg hc, if_neg hg, if_pos hh]
                constructor
                · rintro ⟨e, he⟩
                  exact Except.noConfusion he
                · rintro (h | h | h | h)
                  · exact absurd h hname
                  · exact absurd h hvi
                  · exact absurd h hnolab
                  · exact absurd hh h.2.2
            · refine ⟨fun h => absurd h hh, ?_⟩
              rw [hNew, if_neg hc, if_neg hg, if_neg hh]
              exact ⟨fun _ => Or.inr (Or.inr (Or.inr ⟨hc, hg, hh⟩)), fun _ => ⟨_, rfl⟩⟩

/-- Histogram configuration with no buckets, used by the construction
witness. -/
def histWitnessCfg : MetricCfg where
  constLabels := []
  valueIndex := some 3
  name := str "h"
  type := str "histogram"
  help := []
  buckets := []
  labels := []
  replacements := []
  upstream := ⟨[], 0, false, false⟩
  math := ⟨false, 0, 0⟩

theorem metric_construction_spec_witness :
    MetricModel.kind ⟨[], CollectorKind.histogram defBuckets, false⟩ =
      CollectorKind.histogram
        (if histWitnessCfg.buckets = [] then defBuckets else histWitnessCfg.buckets) :=
  (metric_construction_spec histWitnessCfg).1 rfl
    ⟨[], CollectorKind.histogram defBuckets, false⟩ rfl

/-- C4: the replacement engine's output is determined by the first
matching entry only - that entry's rewrite applied to the input (exact
substring: every occurrence substituted; regular expression: the engine's
replace-all with template expansion, as embodied in `entryResult?`) -
while entries after the first match (here: an arbitrary `post`) are never
applied, and the input is returned unchanged when no entry matches. -/
theorem replacement_first_match (v : Str) :
    (∀ (pre : List Replacement) (r : Replacement) (post : List Replacement) (out : Str),
      (∀ r' ∈ pre, entryResult? r' v = none) → entryResult? r v = some out →
      valueReplacements (pre ++ r :: post) v = out) ∧
    (∀ rs : List Replacement, (∀ r' ∈ rs, entryResult? r' v = none) →
      valueReplacements rs v = v) := by
  constructor
  · intro pre r post out
    induction pre with
    | nil =>
      intro _ hr
      simp only [List.nil_append, valueReplacements]
      rw [hr]
    | cons p rest ih =>
      intro hpre hr
      simp only [List.cons_append, valueReplacements]
      rw [hpre p (List.mem_cons_self p rest)]
      exact ih (fun r' hr' => hpre r' (List.mem_cons_of_mem p hr')) hr
  · intro rs
    induction rs with
    | nil => intro _; rfl
    | cons r rest ih =>
      intro h
      simp only [valueReplacements]
      rw [h r (List.mem_cons_self r rest)]
      exact ih (fun r' hr' => h r' (List.mem_cons_of_mem r hr'))

/-- Non-matching exact-substring entry used by the replacement witness. -/
def repNoMatch : Replacement := ⟨some (str "z"), none, str "Q"⟩

/-- Matching exact-substring entry used by the replacement witness. -/
def repMatch : Replacement := ⟨some (str "a"), none, str "X"⟩

/-- Entry placed after the first match to show it is never applied. -/
def repAfter : Replacement := ⟨some (str "b"), none, str "Y"⟩

theorem replacement_first_match_witness :
    valueReplacements [repNoMatch, repMatch, repAfter] (str "ab") = str "Xb" :=
  (replacement_first_match (str "ab")).1 [repNoMatch] repMatch [repAfter] (str "Xb")
    (by
      intro r' hr'
      rw [List.mem_singleton] at hr'
      subst hr'
      decide)
    (by decide)

theorem setMetricValue_error_nil (cfg : MetricCfg) (v : ℚ) (labels : LabelMap)
    (us : List Upd) (e : PErr) (h : setMetricValue cfg v labels = (us, some e)) :
    us = [] := by
  unfold setMetricValue at h
  by_cases hc : cfg.type = str "counter"
  · rw [if_pos hc] at h
    by_cases hneg : v < 0
    · rw [if_pos hneg] at h
      simp only [Prod.mk.injEq] at h
      exact h.1.symm
    · rw [if_neg hneg] at h
      simp at h
  · rw [if_neg hc] at h
    by_cases hg : cfg.type = str "gauge"
    · rw [if_pos hg] at h
      simp at h
    · rw [if_neg hg] at h
      by_cases hh : cfg.type = str "histogram"
      · rw [if_pos hh] at h
        simp at h
      · rw [if_neg hh] at h
        simp only [Prod.mk.injEq] at h
        exact h.1.symm

theorem setMetric_error_nil (env : Env) (cfg : MetricCfg) (value : Str)
    (labels : LabelMap) (us : List Upd) (e : PErr)
    (h : setMetric env cfg value labels = (us, some e)) : us = [] := by
  unfold setMetric at h
  by_cases ht : trim value = []
  · rw [if_pos ht] at h
    simp at h
  · rw [if_neg ht] at h
    cases hp : env.parseFloat (trim value) with
    | none =>
      rw [hp] at h
      simp only [Prod.mk.injEq] at h
      exact h.1.symm
    | some x =>
      rw [hp] at h
      exact setMetricValue_error_nil cfg _ labels us e h

/-- C1 (amended): outside the upstream fan-out path, a `Parse` call that
returns an error performs no aggregate update; the unamended claim fails
in the fan-out path, where updates already performed for earlier
comma-separated elements survive a later element's failure (see the
counterexample). -/
theorem parse_error_no_mutation_nonupstream (env : Env) (cfg : MetricCfg)
    (hup : cfg.upstream.enabled = false) :
    ∀ (line : List Str) (us : List Upd) (e : PErr),
      parse env cfg line = some (us, some e) → us = [] := by
  intro line us e h
  unfold parse parseWith at h
  cases hv : validateAndExtractValue cfg line with
  | none =>
    rw [hv] at h
    exact Option.noConfusion h
  | some ver =>
    rw [hv] at h
    cases ver with
    | error e' =>
      simp only [Option.some.injEq, Prod.mk.injEq] at h
      exact h.1.symm
    | ok p =>
      obtain ⟨value, skip⟩ := p
      dsimp only at h
      by_cases hs : skip = true
      · rw [if_pos hs] at h
        simp at h
      · rw [if_neg hs] at h
        cases hl : processLabels env cfg line [] with
        | none =>
          rw [hl] at h
          exact Option.noConfusion h
        | some lres =>
          rw [hl] at h
          cases lres with
          | error e' =>
            simp only [Option.some.injEq, Prod.mk.injEq] at h
            exact h.1.symm
          | ok labels =>
            dsimp only at h
            unfold handleMetricValue at h
            cases hvi : cfg.valueIndex with
            | none =>
              rw [hvi] at h
              unfold handleCounterIncrement at h
              by_cases hc : cfg.type = str "counter"
              · rw [if_pos hc] at h
                simp at h
              · rw [if_neg hc] at h
                simp only [Option.some.injEq, Prod.mk.injEq] at h
                exact h.1.symm
            | some vi =>
              rw [hvi] at h
              by_cases hve : value = []
              · rw [if_pos hve] at h
                simp at h
              · rw [if_neg hve, hup] at h
                simp only [Bool.false_eq_true, if_false] at h
                cases hsm : setMetric env cfg value labels with
                | mk us' err' =>
                  rw [hsm] at h
                  simp only [Option.some.injEq, Prod.mk.injEq] at h
                  obtain ⟨h1, h2⟩ := h
                  subst h1
                  rw [h2] at hsm
                  exact setMetric_error_nil env cfg value labels _ e hsm

/-- Gauge configuration with upstream fan-out enabled, used by the C1
counterexample and the C2 witness. -/
def upstreamGaugeCfg : MetricCfg where
  constLabels := []
  valueIndex := some 1
  name := str "m"
  type := str "gauge"
  help := []
  buckets := []
  labels := []
  replacements := []
  upstream := ⟨[], 0, true, false⟩
  math := ⟨false, 0, 0⟩

/-- C1 counterexample: with upstream fan-out enabled, on the line
`["h", "1,x"]` the parse of element `"1"` updates the gauge before the
element `"x"` fails float parsing, so `Parse` returns an error having
already mutated aggregate state. -/
theorem parse_error_mutation_counterexample :
    parse wEnv upstreamGaugeCfg [str "h", str "1,x"] =
      some ([Upd.set [] 1], some (PErr.parseValue (str "x"))) ∧
    ([Upd.set [] 1] : List Upd) ≠ [] := by
  decide

theorem parse_error_no_mutation_nonupstream_witness :
    parse wEnv wGaugeCfg [str "h"] = some ([], some PErr.indexOutOfRange) ∧
    ([] : List Upd) = [] :=
  ⟨by decide, parse_error_no_mutation_nonupstream wEnv wGaugeCfg rfl [str "h"] []
    PErr.indexOutOfRange (by decide)⟩

theorem validate_total (cfg : MetricCfg) (line : List Str) :
    (validateAndExtractValue cfg line).isSome := by
  cases line with
  | nil => rfl
  | cons f0 rest =>
    by_cases hf0 : f0 = []
    · subst hf0
      rfl
    · have hbce : (f0 :: rest).get? ((f0 :: rest).length - 1) =
          some ((f0 :: rest).getD ((f0 :: rest).length - 1) []) :=
        get?_eq_some_getD _ _ _ (by simp)
      have hn : (f0 :: rest).length ≠ 0 := by simp
      cases hvi : cfg.valueIndex with
      | none =>
        simp only [validateAndExtractValue, if_neg hn, List.get?, if_neg hf0, hbce, hvi]
        rfl
      | some vi =>
        by_cases hlt : vi ≥ (f0 :: rest).length
        · simp only [validateAndExtractValue, if_neg hn, List.get?, if_neg hf0, hbce, hvi]
          rw [if_pos hlt]
          rfl
        · have hv : (f0 :: rest).get? vi = some ((f0 :: rest).getD vi []) :=
            get?_eq_some_getD _ _ _ (by omega)
          simp only [validateAndExtractValue, if_neg hn, List.get?, if_neg hf0, hbce,
            hvi, hv]
          rw [if_neg hlt]
          by_cases hsent : (f0 :: rest).getD vi [] = [] ∨ (f0 :: rest).getD vi [] = ['-']
          · rw [if_pos hsent]
            rfl
          · rw [if_neg hsent]
            rfl

theorem processLabelsGo_total (env : Env) (line : List Str) (ls : List LabelCfg) :
    ∀ labels : LabelMap, (processLabelsGo env line ls labels).isSome := by
  induction ls with
  | nil => intro labels; rfl
  | cons l rest ih =>
    intro labels
    by_cases hlt : l.lineIndex ≥ line.length
    · simp [processLabelsGo, hlt]
    · have hv : line.get? l.lineIndex = some (line.getD l.lineIndex []) :=
        get?_eq_some_getD _ _ _ (by omega)
      simp only [processLabelsGo, if_neg hlt, hv]
      exact ih _

theorem getUpstreamForValue_total (ups : List Str) (i : ℕ) (h : ups ≠ []) :
    (getUpstreamForValue ups i).isSome := by
  have hlen : 0 < ups.length := List.length_pos.mpr h
  have hidx : (if i ≥ ups.length then ups.length - 1 else i) < ups.length := by
    by_cases hge : i ≥ ups.length
    · rw [if_pos hge]; omega
    · rw [if_neg hge]; omega
  simp only [getUpstreamForValue]
  rw [get?_eq_some_getD ups _ [] hidx]
  rfl

theorem processValueWithUpstream_total (env : Env) (cfg : MetricCfg) (e : Str)
    (ups : List Str) (i : ℕ) (labels : LabelMap) :
    (processValueWithUpstream env cfg e ups i labels).isSome := by
  unfold processValueWithUpstream
  by_cases h : ups = []
  · simp [h]
  · rw [if_neg h]
    obtain ⟨u, hu⟩ := Option.isSome_iff_exists.mp (getUpstreamForValue_total ups i h)
    rw [hu]
    by_cases hex : isUpstreamExcluded cfg u = true
    · simp [hex]
    · simp [hex]

theorem processElems_total (env : Env) (cfg : MetricCfg) (ups : List Str)
    (elems : List Str) :
    ∀ (labels : LabelMap) (i : ℕ), (processElems env cfg ups elems labels i).isSome := by
  induction elems with
  | nil => intro labels i; rfl
  | cons e rest ih =>
    intro labels i
    unfold processElems
    by_cases hd : e = ['-']
    · rw [if_pos hd]
      exact ih labels (i + 1)
    · rw [if_neg hd]
      obtain ⟨⟨labels', us, err⟩, hp⟩ :=
        Option.isSome_iff_exists.mp (processValueWithUpstream_total env cfg e ups i labels)
      rw [hp]
      cases err with
      | some e' => rfl
      | none =>
        dsimp only
        obtain ⟨⟨us', err'⟩, hr⟩ := Option.isSome_iff_exists.mp (ih labels' (i + 1))
        rw [hr]
        rfl

theorem parseUpstreams_total (cfg : MetricCfg) (line : List Str) :
    (parseUpstreams cfg line line.length).isSome := by
  unfold parseUpstreams
  by_cases h1 : cfg.upstream.excludes = [] ∧ cfg.upstream.label = false
  · simp [h1]
  · rw [if_neg h1]
    by_cases h2 : cfg.upstream.addrLineIndex ≥ line.length
    · simp [h2]
    · rw [if_neg h2, get?_eq_some_getD line _ [] (by omega)]
      rfl

theorem setMetricWithUpstream_total (env : Env) (cfg : MetricCfg) (line : List Str)
    (value : Str) (labels : LabelMap) :
    (setMetricWithUpstream env cfg line line.length value labels).isSome := by
  unfold setMetricWithUpstream
  obtain ⟨pu, hpu⟩ := Option.isSome_iff_exists.mp (parseUpstreams_total cfg line)
  rw [hpu]
  cases pu with
  | error e => rfl
  | ok ups => exact processElems_total env cfg ups (walkElems value) labels 0

theorem handleMetricValue_total (env : Env) (cfg : MetricCfg) (line : List Str)
    (value : Str) (labels : LabelMap) :
    (handleMetricValue env cfg line value labels).isSome := by
  unfold handleMetricValue
  cases cfg.valueIndex with
  | none => rfl
  | some vi =>
    by_cases hv : value = []
    · simp [hv]
    · rw [if_neg hv]
      by_cases hup : cfg.upstream.enabled = true
      · rw [if_pos hup]
        exact setMetricWithUpstream_total env cfg line value labels
      · rw [if_neg hup]
        rfl

/-- C9: `Parse` is total on every input line: every field access it
performs (the first-field check, the bounds-check-elimination access
`line[lineLength-1]`, `value_index`, each label's `line_index`,
`upstream.addr_index`, and the upstream slice access) is dominated by an
explicit emptiness or bounds check, so the embedding - in which any
unguarded access would surface as `none` - never produces `none`,
whatever pooled label map it starts from. -/
theorem parse_total_no_panic (env : Env) (cfg : MetricCfg) (labels0 : LabelMap)
    (line : List Str) : (parseWith env cfg labels0 line).isSome := by
  unfold parseWith
  obtain ⟨ver, hver⟩ := Option.isSome_iff_exists.mp (validate_total cfg line)
  rw [hver]
  cases ver with
  | error e => rfl
  | ok p =>
    obtain ⟨value, skip⟩ := p
    dsimp only
    by_cases hs : skip = true
    · simp [hs]
    · rw [if_neg hs]
      obtain ⟨lres, hl⟩ :=
        Option.isSome_iff_exists.mp (processLabelsGo_total env line cfg.labels labels0)
      show (match processLabels env cfg line labels0 with
        | none => none
        | some (.error e) => some ([], some e)
        | some (.ok labels) => handleMetricValue env cfg line value labels).isSome
      rw [show processLabels env cfg line labels0 = some lres from hl]
      cases lres with
      | error e => rfl
      | ok labels => exact handleMetricValue_total env cfg line value labels

/-- Updates a counter-typed metric may legally perform: an increment, or
an addition of a non-negative amount. -/
def counterUpdOK : Upd → Prop
  | .inc _ => True
  | .add _ v => 0 ≤ v
  | .set _ _ => False
  | .observe _ _ => False

theorem setMetricValue_counter_ok (cfg : MetricCfg) (hc : cfg.type = str "counter")
    (v : ℚ) (labels : LabelMap) (us : List Upd) (err : Option PErr)
    (h : setMetricValue cfg v labels = (us, err)) : ∀ u ∈ us, counterUpdOK u := by
  unfold setMetricValue at h
  rw [if_pos hc] at h
  by_cases hneg : v < 0
  · rw [if_pos hneg] at h
    simp only [Prod.mk.injEq] at h
    rw [← h.1]
    intro u hu
    simp at hu
  · rw [if_neg hneg] at h
    simp only [Prod.mk.injEq] at h
    rw [← h.1]
    intro u hu
    rw [List.mem_singleton] at hu
    subst hu
    exact not_lt.mp hneg

theorem setMetric_counter_ok (env : Env) (cfg : MetricCfg)
    (hc : cfg.type = str "counter") (value : Str) (labels : LabelMap)
    (us : List Upd) (err : Option PErr)
    (h : setMetric env cfg value labels = (us, err)) : ∀ u ∈ us, counterUpdOK u := by
  unfold setMetric at h
  by_cases ht : trim value = []
  · rw [if_pos ht] at h
    simp only [Prod.mk.injEq] at h
    rw [← h.1]
    intro u hu
    simp at hu
  · rw [if_neg ht] at h
    cases hp : env.parseFloat (trim value) with
    | none =>
      rw [hp] at h
      simp only [Prod.mk.injEq] at h
      rw [← h.1]
      intro u hu
      simp at hu
    | some x =>
      rw [hp] at h
      exact setMetricValue_counter_ok cfg hc _ labels us err h

theorem processValueWithUpstream_counter_ok (env : Env) (cfg : MetricCfg)
    (hc : cfg.type = str "counter") (e : Str) (ups : List Str) (i : ℕ)
    (labels labels' : LabelMap) (us : List Upd) (err : Option PErr)
    (h : processValueWithUpstream env cfg e ups i labels = some (labels', us, err)) :
    ∀ u ∈ us, counterUpdOK u := by
  unfold processValueWithUpstream at h
  by_cases hups : ups = []
  · rw [if_pos hups] at h
    cases hsm : setMetric env cfg e labels with
    | mk us0 err0 =>
      rw [hsm] at h
      simp only [Option.some.injEq, Prod.mk.injEq] at h
      rw [← h.2.1]
      exact setMetric_counter_ok env cfg hc e labels us0 err0 hsm
  · rw [if_neg hups] at h
    cases hg : getUpstreamForValue ups i with
    | none =>
      rw [hg] at h
      exact Option.noConfusion h
    | some u0 =>
      rw [hg] at h
      dsimp only at h
      by_cases hex : isUpstreamExcluded cfg u0 = true
      · rw [if_pos hex] at h
        simp only [Option.some.injEq, Prod.mk.injEq] at h
        obtain ⟨-, h2, -⟩ := h
        rw [← h2]
        intro u hu
        simp at hu
      · rw [if_neg hex] at h
        cases hsm : setMetric env cfg e
            (if cfg.upstream.label = true then mapSet (str "upstream") u0 labels
             else labels) with
        | mk us0 err0 =>
          rw [hsm] at h
          simp only [Option.some.injEq, Prod.mk.injEq] at h
          rw [← h.2.1]
          exact setMetric_counter_ok env cfg hc e _ us0 err0 hsm

theorem processElems_counter_ok (env : Env) (cfg : MetricCfg)
    (hc : cfg.type = str "counter") (ups : List Str) (elems : List Str) :
    ∀ (labels : LabelMap) (i : ℕ) (us : List Upd) (err : Option PErr),
      processElems env cfg ups elems labels i = some (us, err) →
      ∀ u ∈ us, counterUpdOK u := by
  induction elems with
  | nil =>
    intro labels i us err h
    simp only [processElems, Option.some.injEq, Prod.mk.injEq] at h
    rw [← h.1]
    intro u hu
    simp at hu
  | cons e rest ih =>
    intro labels i us err h
    unfold processElems at h
    by_cases hd : e = ['-']
    · rw [if_pos hd] at h
      exact ih labels (i + 1) us err h
    · rw [if_neg hd] at h
      cases hp : processValueWithUpstream env cfg e ups i labels with
      | none =>
        rw [hp] at h
        exact Option.noConfusion h
      | some trip =>
        rw [hp] at h
        obtain ⟨labels', us0, err0⟩ := trip
        cases err0 with
        | some e0 =>
          simp only [Option.some.injEq, Prod.mk.injEq] at h
          rw [← h.1]
          exact processValueWithUpstream_counter_ok env cfg hc e ups i labels
            labels' us0 (some e0) hp
        | none =>
          dsimp only at h
          cases hr : processElems env cfg ups rest labels' (i + 1) with
          | none =>
            rw [hr] at h
            exact Option.noConfusion h
          | some pr =>
            rw [hr] at h
            obtain ⟨us', err'⟩ := pr
            simp only [Option.some.injEq, Prod.mk.injEq] at h
            rw [← h.1]
            intro u hu
            rcases List.mem_append.mp hu with h1 | h2
            · exact processValueWithUpstream_counter_ok env cfg hc e ups i labels
                labels' us0 none hp u h1
            · exact ih labels' (i + 1) us' err' hr u h2

theorem parseWith_counter_ok (env : Env) (cfg : MetricCfg)
    (hc : cfg.type = str "counter") (labels0 : LabelMap) (line : List Str)
    (us : List Upd) (err : Option PErr)
    (h : parseWith env cfg labels0 line = some (us, err)) :
    ∀ u ∈ us, counterUpdOK u := by
  unfold parseWith at h
  cases hv : validateAndExtractValue cfg line with
  | none =>
    rw [hv] at h
    exact Option.noConfusion h
  | some ver =>
    rw [hv] at h
    cases ver with
    | error e =>
      simp only [Option.some.injEq, Prod.mk.injEq] at h
      rw [← h.1]
      intro u hu
      simp at hu
    | ok p =>
      obtain ⟨value, skip⟩ := p
      dsimp only at h
      by_cases hs : skip = true
      · rw [if_pos hs] at h
        simp only [Option.some.injEq, Prod.mk.injEq] at h
        rw [← h.1]
        intro u hu
        simp at hu
      · rw [if_neg hs] at h
        cases hl : processLabels env cfg line labels0 with
        | none =>
          rw [hl] at h
          exact Option.noConfusion h
        | some lres =>
          rw [hl] at h
          cases lres with
          | error e =>
            simp only [Option.some.injEq, Prod.mk.injEq] at h
            rw [← h.1]
            intro u hu
            simp at hu
          | ok labels =>
            dsimp only at h
            unfold handleMetricValue at h
            cases hvi : cfg.valueIndex with
            | none =>
              rw [hvi] at h
              unfold handleCounterIncrement at h
              rw [if_pos hc] at h
              simp only [Option.some.injEq, Prod.mk.injEq] at h
              rw [← h.1]
              intro u hu
              rw [List.mem_singleton] at hu
              subst hu
              trivial
            | some vi =>
              rw [hvi] at h
              by_cases hve : value = []
              · rw [if_pos hve] at h
                simp only [Option.some.injEq, Prod.mk.injEq] at h
                rw [← h.1]
                intro u hu
                simp at hu
              · rw [if_neg hve] at h
                by_cases hup : cfg.upstream.enabled = true
                · rw [if_pos hup] at h
                  unfold setMetricWithUpstream at h
                  cases hpu : parseUpstreams cfg line line.length with
                  | none =>
                    rw [hpu] at h
                    exact Option.noConfusion h
                  | some pu =>
                    rw [hpu] at h
                    cases pu with
                    | error e =>
                      simp only [Option.some.injEq, Prod.mk.injEq] at h
                      rw [← h.1]
                      intro u hu
                      simp at hu
                    | ok ups =>
                      exact processElems_counter_ok env cfg hc ups
                        (walkElems value) labels 0 us err h
                · rw [if_neg hup] at h
                  cases hsm : setMetric env cfg value labels with
                  | mk us0 err0 =>
                    rw [hsm] at h
                    simp only [Option.some.injEq, Prod.mk.injEq] at h
                    rw [← h.1]
                    exact setMetric_counter_ok env cfg hc value labels us0 err0 hsm

theorem updAmount_nonneg (L : LabelMap) (u : Upd) (h : counterUpdOK u) :
    0 ≤ updAmount L u := by
  cases u with
  | inc l =>
    unfold updAmount
    by_cases hl : l = L
    · simp [hl]
    · simp [hl]
  | add l v =>
    unfold updAmount
    by_cases hl : l = L
    · simpa [hl] using h
    · simp [hl]
  | set l v => exact absurd h id
  | observe l v => exact absurd h id

theorem counterTotal_append (L : LabelMap) (us us' : List Upd) :
    counterTotal L (us ++ us') = counterTotal L us + counterTotal L us' := by
  unfold counterTotal
  rw [List.map_append, List.sum_append]

/-! ## Float-valued refinement of the counter update.
The engine above carries values as rationals, which covers exactly the
finite values of `float64`. `strconv.ParseFloat` also accepts `"NaN"`
and `"±Inf"`; the definitions below model the value dispatch of
`setMetricValue` over the full `float64` value set, where comparisons
with NaN are false and additions with NaN produce NaN. -/

/-- A `float64` value: a finite value (as a rational), NaN, or an
infinity. -/
inductive FVal where
  | num (q : ℚ)
  | nan
  | posInf
  | negInf
deriving DecidableEq

/-- IEEE-754 `<` on the modelled values: every comparison involving NaN
is false. -/
def fltLt : FVal → FVal → Bool
  | .nan, _ => false
  | _, .nan => false
  | .num a, .num b => decide (a < b)
  | .negInf, .negInf => false
  | .negInf, _ => true
  | _, .negInf => false
  | .posInf, _ => false
  | .num _, .posInf => true

/-- IEEE-754 `≤` on the modelled values: false whenever either side is
NaN. -/
def fltLe : FVal → FVal → Bool
  | .nan, _ => false
  | _, .nan => false
  | .num a, .num b => decide (a ≤ b)
  | .negInf, _ => true
  | _, .negInf => false
  | _, .posInf => true
  | .posInf, _ => false

/-- IEEE-754 addition on the modelled values: NaN is absorbing, and
opposite infinities produce NaN. -/
def fltAdd : FVal → FVal → FVal
  | .nan, _ => .nan
  | _, .nan => .nan
  | .num a, .num b => .num (a + b)
  | .posInf, .negInf => .nan
  | .negInf, .posInf => .nan
  | .posInf, _ => .posInf
  | _, .posInf => .posInf
  | .negInf, _ => .negInf
  | _, .negInf => .negInf

/-- Aggregate updates over the full `float64` value set. -/
inductive UpdF where
  | incF (labels : LabelMap)
  | addF (labels : LabelMap) (v : FVal)
  | setF (labels : LabelMap) (v : FVal)
  | observeF (labels : LabelMap) (v : FVal)
deriving DecidableEq

/-- `(*Metric).setMetricValue` with its value kept in the full `float64`
value set: the counter branch guards with `value < 0`, which is false
for NaN, so a NaN value reaches `Add`. -/
def setMetricValueF (cfg : MetricCfg) (v : FVal) (labels : LabelMap) :
    List UpdF × Option PErr :=
  if cfg.type = str "counter" then
    if fltLt v (FVal.num 0) then ([], some .negativeCounter)
    else ([UpdF.addF labels v], none)
  else if cfg.type = str "gauge" then ([UpdF.setF labels v], none)
  else if cfg.type = str "histogram" then ([UpdF.observeF labels v], none)
  else ([], some .badType)

/-- Contribution of one float-valued update to the counter sample keyed
by `L`. -/
def updAmountF (L : LabelMap) : UpdF → FVal
  | .incF l => if l = L then .num 1 else .num 0
  | .addF l v => if l = L then v else .num 0
  | .setF _ _ => .num 0
  | .observeF _ _ => .num 0

/-- Exposed value of the counter sample keyed by `L` after a list of
float-valued updates, folded with IEEE addition from zero. -/
def counterTotalF (L : LabelMap) (us : List UpdF) : FVal :=
  us.foldl (fun acc u => fltAdd acc (updAmountF L u)) (FVal.num 0)

/-- Counter configuration with `value_index = 1`, used by the counter
witness. -/
def wCounterCfg : MetricCfg where
  constLabels := []
  valueIndex := some 1
  name := str "c"
  type := str "counter"
  help := []
  buckets := []
  labels := []
  replacements := []
  upstream := ⟨[], 0, false, false⟩
  math := ⟨false, 0, 0⟩

/-- C8 counterexample: `strconv.ParseFloat` accepts `"NaN"`; in the
counter branch of `setMetricValue` the guard `NaN < 0` is false, so the
call performs `Add(NaN)` with no error, and after it the exposed counter
sample is NaN and no longer at least its previous value - monotonic
non-decrease fails on the real `float64` value set. -/
theorem counter_monotone_counterexample :
    setMetricValueF wCounterCfg FVal.nan [] = ([UpdF.addF [] FVal.nan], none) ∧
    counterTotalF [] [UpdF.addF [] (FVal.num 1)] = FVal.num 1 ∧
    counterTotalF [] [UpdF.addF [] (FVal.num 1), UpdF.addF [] FVal.nan] = FVal.nan ∧
    fltLe (counterTotalF [] [UpdF.addF [] (FVal.num 1)])
      (counterTotalF [] [UpdF.addF [] (FVal.num 1), UpdF.addF [] FVal.nan]) = false := by
  refine ⟨by decide, ?_, rfl, rfl⟩
  simp [counterTotalF, updAmountF, fltAdd]

/-- C8 (amended): for a counter metric a value negative after rescaling
yields the negative-counter error with no update, and - provided every
successfully parsed value is a finite float, which the rational value
model expresses (the NaN exception is the counterexample above) - every
update a `Parse` call can perform is an increment or a non-negative
addition, so the exposed value of every counter sample is non-decreasing
across any sequence of `Parse` calls. -/
theorem counter_negative_and_monotone (env : Env) (cfg : MetricCfg)
    (hc : cfg.type = str "counter") :
    (∀ (v : ℚ) (labels : LabelMap), v < 0 →
      setMetricValue cfg v labels = ([], some PErr.negativeCounter)) ∧
    (∀ (lines : List (List Str)) (line : List Str) (L : LabelMap),
      counterTotal L (runLines env cfg lines) ≤
        counterTotal L (runLines env cfg (lines ++ [line]))) := by
  constructor
  · intro v labels hneg
    unfold setMetricValue
    rw [if_pos hc, if_pos hneg]
  · intro lines line L
    have hsplit : runLines env cfg (lines ++ [line]) =
        runLines env cfg lines ++ parseUpdates env cfg line := by
      unfold runLines
      rw [List.map_append, List.flatten_append]
      simp
    rw [hsplit, counterTotal_append]
    have hok : ∀ u ∈ parseUpdates env cfg line, counterUpdOK u := by
      unfold parseUpdates parse
      cases hp : parseWith env cfg [] line with
      | none =>
        intro u hu
        simp at hu
      | some pr =>
        obtain ⟨us, err⟩ := pr
        exact parseWith_counter_ok env cfg hc [] line us err hp
    have hnn : 0 ≤ counterTotal L (parseUpdates env cfg line) := by
      unfold counterTotal
      apply List.sum_nonneg
      intro x hx
      obtain ⟨u, hu, rfl⟩ := List.mem_map.mp hx
      exact updAmount_nonneg L u (hok u hu)
    linarith

theorem counter_negative_and_monotone_witness :
    setMetricValue wCounterCfg (-1) [] = ([], some PErr.negativeCounter) ∧
    counterTotal [] (runLines wEnv wCounterCfg [[str "a", str "1"]]) ≤
      counterTotal []
        (runLines wEnv wCounterCfg ([[str "a", str "1"]] ++ [[str "a", str "2"]])) :=
  ⟨(counter_negative_and_monotone wEnv wCounterCfg rfl).1 (-1) [] (by norm_num),
    (counter_negative_and_monotone wEnv wCounterCfg rfl).2
      [[str "a", str "1"]] [str "a", str "2"] []⟩

/-! ## Specification-side counting for the upstream fan-out (C2) -/

/-- The addresses the claim speaks about: extracted from the
`upstream.addr_index` field (split on commas, each element trimmed) when
excludes or the upstream label need them, and absent (`[]`) otherwise -
mirroring the skip condition of `parseUpstreams`. -/
def upstreamAddrs (cfg : MetricCfg) (line : List Str) : List Str :=
  if cfg.upstream.excludes = [] ∧ cfg.upstream.label = false then []
  else (splitComma (line.getD cfg.upstream.addrLineIndex [])).map trim

/-- The claim's positional alignment: `addresses[min(i, len(addresses)-1)]`. -/
def alignedUpstreamAddr (addrs : List Str) (i : ℕ) : Str :=
  addrs.getD (min i (addrs.length - 1)) []

/-- The claim's counting predicate for the `i`-th comma-separated element:
not `"-"`, not empty after whitespace trimming, aligned address not in
the excludes list. -/
abbrev countedElem (cfg : MetricCfg) (addrs : List Str) (i : ℕ) (e : Str) : Prop :=
  trim e ≠ ['-'] ∧ trim e ≠ [] ∧ alignedUpstreamAddr addrs i ∉ cfg.upstream.excludes

/-- Count of counted elements, starting at position `i`. -/
def countElemsFrom (cfg : MetricCfg) (addrs : List Str) : ℕ → List Str → ℕ
  | _, [] => 0
  | i, e :: rest =>
    (if countedElem cfg addrs i e then 1 else 0) + countElemsFrom cfg addrs (i + 1) rest

/-- The number of registry updates the claim predicts for a value field. -/
def expectedUpdateCount (cfg : MetricCfg) (addrs : List Str) (value : Str) : ℕ :=
  countElemsFrom cfg addrs 0 (splitComma value)

/-- Count over the already-trimmed elements the code's walk visits. -/
def countWalk (cfg : MetricCfg) (ups : List Str) : ℕ → List Str → ℕ
  | _, [] => 0
  | i, e :: rest =>
    (if e ≠ ['-'] ∧ trim e ≠ [] ∧
        (ups = [] ∨ alignedUpstreamAddr ups i ∉ cfg.upstream.excludes) then 1 else 0) +
      countWalk cfg ups (i + 1) rest

theorem setMetric_ok_length (env : Env) (cfg : MetricCfg) (e : Str)
    (labels : LabelMap) (us : List Upd)
    (h : setMetric env cfg e labels = (us, none)) :
    us.length = if trim e = [] then 0 else 1 := by
  unfold setMetric at h
  by_cases ht : trim e = []
  · rw [if_pos ht] at h
    rw [if_pos ht]
    simp only [Prod.mk.injEq] at h
    rw [← h.1]
    rfl
  · rw [if_neg ht] at h
    rw [if_neg ht]
    cases hp : env.parseFloat (trim e) with
    | none =>
      rw [hp] at h
      simp at h
    | some x =>
      rw [hp] at h
      dsimp only at h
      unfold setMetricValue at h
      by_cases hc : cfg.type = str "counter"
      · rw [if_pos hc] at h
        by_cases hneg : applyMathTransformations cfg x < 0
        · rw [if_pos hneg] at h
          simp at h
        · rw [if_neg hneg] at h
          simp only [Prod.mk.injEq] at h
          rw [← h.1]
          rfl
      · rw [if_neg hc] at h
        by_cases hg : cfg.type = str "gauge"
        · rw [if_pos hg] at h
          simp only [Prod.mk.injEq] at h
          rw [← h.1]
          rfl
        · rw [if_neg hg] at h
          by_cases hh : cfg.type = str "histogram"
          · rw [if_pos hh] at h
            simp only [Prod.mk.injEq] at h
            rw [← h.1]
            rfl
          · rw [if_neg hh] at h
            simp at h

theorem getUpstreamForValue_eq_aligned (ups : List Str) (i : ℕ) (h : ups ≠ []) :
    getUpstreamForValue ups i = some (alignedUpstreamAddr ups i) := by
  have hlen : 0 < ups.length := List.length_pos.mpr h
  have hidx : (if i ≥ ups.length then ups.length - 1 else i) = min i (ups.length - 1) := by
    by_cases hge : i ≥ ups.length
    · rw [if_pos hge]
      omega
    · rw [if_neg hge]
      omega
  show ups.get? (if i ≥ ups.length then ups.length - 1 else i) = _
  rw [hidx]
  exact get?_eq_some_getD ups _ [] (by omega)

theorem isUpstreamExcluded_iff (cfg : MetricCfg) (u : Str) :
    isUpstreamExcluded cfg u = true ↔ u ∈ cfg.upstream.excludes := by
  unfold isUpstreamExcluded
  cases hex : cfg.upstream.excludes with
  | nil => simp
  | cons a t => simp

theorem processElems_ok_length (env : Env) (cfg : MetricCfg) (ups : List Str) :
    ∀ (elems : List Str) (labels : LabelMap) (i : ℕ) (us : List Upd),
      processElems env cfg ups elems labels i = some (us, none) →
      us.length = countWalk cfg ups i elems := by
  intro elems
  induction elems with
  | nil =>
    intro labels i us h
    simp only [processElems, Option.some.injEq, Prod.mk.injEq] at h
    rw [← h.1]
    rfl
  | cons e rest ih =>
    intro labels i us h
    unfold processElems at h
    unfold countWalk
    by_cases hd : e = ['-']
    · rw [if_pos hd] at h
      rw [if_neg (by simp [hd])]
      simpa using ih labels (i + 1) us h
    · rw [if_neg hd] at h
      cases hp : processValueWithUpstream env cfg e ups i labels with
      | none =>
        rw [hp] at h
        exact Option.noConfusion h
      | some trip =>
        rw [hp] at h
        obtain ⟨labels', us0, err0⟩ := trip
        cases err0 with
        | some e0 => simp at h
        | none =>
          dsimp only at h
          cases hr : processElems env cfg ups rest labels' (i + 1) with
          | none =>
            rw [hr] at h
            exact Option.noConfusion h
          | some pr =>
            rw [hr] at h
            obtain ⟨us', err'⟩ := pr
            simp only [Option.some.injEq, Prod.mk.injEq] at h
            obtain ⟨h1, h2⟩ := h
            subst h2
            rw [← h1, List.length_append]
            have hrest := ih labels' (i + 1) us' hr
            rw [hrest]
            -- it remains to count the head element
            unfold processValueWithUpstream at hp
            by_cases hups : ups = []
            · rw [if_pos hups] at hp
              simp only [Option.some.injEq, Prod.mk.injEq] at hp
              have := setMetric_ok_length env cfg e labels us0 hp.2
              rw [this]
              by_cases ht : trim e = []
              · rw [if_pos ht, if_neg (by simp [ht])]
              · rw [if_neg ht, if_pos ⟨hd, ht, Or.inl hups⟩]
            · rw [if_neg hups] at hp
              rw [getUpstreamForValue_eq_aligned ups i hups] at hp
              dsimp only at hp
              by_cases hex : isUpstreamExcluded cfg (alignedUpstreamAddr ups i) = true
              · rw [if_pos hex] at hp
                have hus : us0 = [] := by
                  simp only [Option.some.injEq, Prod.mk.injEq] at hp
                  tauto
                subst hus
                have hmem := (isUpstreamExcluded_iff cfg _).mp hex
                rw [if_neg (by
                  intro hcontra
                  rcases hcontra.2.2 with hnil | hnot
                  · exact hups hnil
                  · exact hnot hmem)]
                rfl
              · rw [if_neg hex] at hp
                simp only [Option.some.injEq, Prod.mk.injEq] at hp
                have := setMetric_ok_length env cfg e _ us0 hp.2
                rw [this]
                have hnmem : alignedUpstreamAddr ups i ∉ cfg.upstream.excludes := by
                  intro hmem
                  exact hex ((isUpstreamExcluded_iff cfg _).mpr hmem)
                by_cases ht : trim e = []
                · rw [if_pos ht, if_neg (by simp [ht])]
                · rw [if_neg ht, if_pos ⟨hd, ht, Or.inr hnmem⟩]

theorem walk_split_bounded :
    ∀ (n : ℕ) (v : Str), v.length ≤ n →
      (splitComma v).map trim = walkElems v ∨
      (splitComma v).map trim = walkElems v ++ [[]] := by
  intro n
  induction n with
  | zero =>
    intro v hv
    have : v = [] := List.length_eq_zero.mp (Nat.le_zero.mp hv)
    subst this
    left
    rfl
  | succ n ih =>
    intro v hv
    rw [splitComma_breakComma v, walkElems_eq v]
    cases hbc : breakComma v with
    | mk a ro =>
      cases ro with
      | none =>
        left
        rfl
      | some r =>
        dsimp only
        by_cases hr : r = []
        · subst hr
          rw [if_pos rfl]
          right
          rfl
        · rw [if_neg hr]
          have hlt := breakComma_some_lt v a r hbc
          rcases ih r (by omega) with h1 | h2
          · left
            simp only [List.map_cons]
            rw [h1]
          · right
            simp only [List.map_cons]
            rw [h2]
            rfl

theorem walk_split (v : Str) :
    (splitComma v).map trim = walkElems v ∨
    (splitComma v).map trim = walkElems v ++ [[]] :=
  walk_split_bounded v.length v le_rfl

theorem countWalk_append (cfg : MetricCfg) (ups : List Str) :
    ∀ (xs ys : List Str) (i : ℕ),
      countWalk cfg ups i (xs ++ ys) =
        countWalk cfg ups i xs + countWalk cfg ups (i + xs.length) ys := by
  intro xs
  induction xs with
  | nil =>
    intro ys i
    simp [countWalk]
  | cons x xs ih =>
    intro ys i
    simp only [List.cons_append, countWalk, List.append_eq]
    rw [ih ys (i + 1)]
    have h1 : i + 1 + xs.length = i + (x :: xs).length := by
      simp only [List.length_cons]
      omega
    rw [h1]
    ring

theorem countWalk_trailing_empty (cfg : MetricCfg) (ups : List Str) (j : ℕ) :
    countWalk cfg ups j [[]] = 0 := by
  simp [countWalk, trim, trimRight]

theorem countWalk_map_trim (cfg : MetricCfg) (ups : List Str)
    (hconn : ups = [] → cfg.upstream.excludes = []) :
    ∀ (es : List Str) (i : ℕ),
      countWalk cfg ups i (es.map trim) = countElemsFrom cfg ups i es := by
  intro es
  induction es with
  | nil =>
    intro i
    rfl
  | cons e rest ih =>
    intro i
    simp only [List.map_cons, countWalk, countElemsFrom]
    rw [ih (i + 1)]
    have hiff : (trim e ≠ ['-'] ∧ trim (trim e) ≠ [] ∧
        (ups = [] ∨ alignedUpstreamAddr ups i ∉ cfg.upstream.excludes)) ↔
        countedElem cfg ups i e := by
      rw [trim_idem]
      constructor
      · rintro ⟨h1, h2, h3⟩
        refine ⟨h1, h2, ?_⟩
        rcases h3 with hnil | hmem
        · rw [hconn hnil]
          simp
        · exact hmem
      · rintro ⟨h1, h2, h3⟩
        exact ⟨h1, h2, Or.inr h3⟩
    by_cases hP : countedElem cfg ups i e
    · rw [if_pos (hiff.mpr hP), if_pos hP]
    · rw [if_neg (fun hw => hP (hiff.mp hw)), if_neg hP]

theorem countWalk_walkElems (cfg : MetricCfg) (ups : List Str)
    (hconn : ups = [] → cfg.upstream.excludes = []) (v : Str) :
    countWalk cfg ups 0 (walkElems v) = expectedUpdateCount cfg ups v := by
  unfold expectedUpdateCount
  rw [← countWalk_map_trim cfg ups hconn (splitComma v) 0]
  rcases walk_split v with h1 | h2
  · rw [h1]
  · rw [h2, countWalk_append cfg ups (walkElems v) [[]] 0,
      countWalk_trailing_empty cfg ups]
    omega

theorem validate_value (cfg : MetricCfg) (line : List Str) (vi : ℕ)
    (hvi : cfg.valueIndex = some vi) (hlt : vi < line.length)
    (hf0 : line.getD 0 [] ≠ [])
    (hraw : ¬(line.getD vi [] = [] ∨ line.getD vi [] = ['-'])) :
    validateAndExtractValue cfg line =
      some (.ok (valueReplacements cfg.replacements (line.getD vi []), false)) := by
  cases line with
  | nil => simp at hlt
  | cons f0 rest =>
    have hf0' : f0 ≠ [] := by simpa using hf0
    have hn : (f0 :: rest).length ≠ 0 := by simp
    have hbce : (f0 :: rest).get? ((f0 :: rest).length - 1) =
        some ((f0 :: rest).getD ((f0 :: rest).length - 1) []) :=
      get?_eq_some_getD _ _ _ (by simp)
    have hv : (f0 :: rest).get? vi = some ((f0 :: rest).getD vi []) :=
      get?_eq_some_getD _ _ _ hlt
    simp only [validateAndExtractValue, if_neg hn, List.get?, if_neg hf0', hbce, hvi, hv]
    rw [if_neg (by omega : ¬ vi ≥ (f0 :: rest).length), if_neg hraw]

/-- C2: for a metric with upstream fan-out enabled, a line whose parse
succeeds performs exactly as many aggregate updates as there are
comma-separated elements of the (replacement-processed) value field that
are not `"-"`, not empty after whitespace trimming, and whose positionally
aligned address `addresses[min(i, len(addresses)-1)]` is not in
`upstream.excludes`. -/
theorem upstream_update_count (env : Env) (cfg : MetricCfg) (line : List Str)
    (vi : ℕ) (us : List Upd)
    (hup : cfg.upstream.enabled = true)
    (hvi : cfg.valueIndex = some vi)
    (hlt : vi < line.length)
    (hraw : ¬(line.getD vi [] = [] ∨ line.getD vi [] = ['-']))
    (hf0 : line.getD 0 [] ≠ [])
    (hok : parse env cfg line = some (us, none)) :
    us.length = expectedUpdateCount cfg (upstreamAddrs cfg line)
      (valueReplacements cfg.replacements (line.getD vi [])) := by
  unfold parse parseWith at hok
  rw [validate_value cfg line vi hvi hlt hf0 hraw] at hok
  dsimp only at hok
  rw [if_neg Bool.false_ne_true] at hok
  cases hl : processLabels env cfg line [] with
  | none =>
    rw [hl] at hok
    exact Option.noConfusion hok
  | some lres =>
    rw [hl] at hok
    cases lres with
    | error e => simp at hok
    | ok labels =>
      dsimp only at hok
      unfold handleMetricValue at hok
      rw [hvi] at hok
      dsimp only at hok
      set pv := valueReplacements cfg.replacements (line.getD vi []) with hpv
      by_cases hpve : pv = []
      · rw [if_pos hpve] at hok
        simp only [Option.some.injEq, Prod.mk.injEq] at hok
        rw [← hok.1, hpve]
        have hnc : ¬ countedElem cfg (upstreamAddrs cfg line) 0 [] := by
          intro hcount
          exact hcount.2.1 rfl
        simp [expectedUpdateCount, splitComma, countElemsFrom, hnc]
      · rw [if_neg hpve, if_pos hup] at hok
        unfold setMetricWithUpstream at hok
        unfold parseUpstreams at hok
        by_cases hskipU : cfg.upstream.excludes = [] ∧ cfg.upstream.label = false
        · rw [if_pos hskipU] at hok
          dsimp only at hok
          have hlen := processElems_ok_length env cfg [] (walkElems pv) labels 0 us hok
          rw [hlen, countWalk_walkElems cfg [] (fun _ => hskipU.1) pv]
          unfold upstreamAddrs
          rw [if_pos hskipU]
        · rw [if_neg hskipU] at hok
          by_cases haddr : cfg.upstream.addrLineIndex ≥ line.length
          · rw [if_pos haddr] at hok
            simp at hok
          · rw [if_neg haddr] at hok
            rw [get?_eq_some_getD line cfg.upstream.addrLineIndex [] (by omega)] at hok
            dsimp only at hok
            set ups := (splitComma (line.getD cfg.upstream.addrLineIndex [])).map trim
              with hups
            have hne : ups ≠ [] := by
              rw [hups]
              intro hnil
              exact splitComma_ne_nil _ (List.map_eq_nil_iff.mp hnil)
            have hlen := processElems_ok_length env cfg ups (walkElems pv) labels 0 us hok
            rw [hlen, countWalk_walkElems cfg ups (fun hnil => absurd hnil hne) pv]
            unfold upstreamAddrs
            rw [if_neg hskipU, ← hups]

theorem upstream_update_count_witness :
    ([Upd.set [] 1, Upd.set [] 2] : List Upd).length =
      expectedUpdateCount upstreamGaugeCfg
        (upstreamAddrs upstreamGaugeCfg [str "h", str "1,2"])
        (valueReplacements upstreamGaugeCfg.replacements
          ([str "h", str "1,2"].getD 1 [])) :=
  upstream_update_count wEnv upstreamGaugeCfg [str "h", str "1,2"] 1
    [Upd.set [] 1, Upd.set [] 2] rfl rfl (by decide) (by decide) (by decide) (by decide)

theorem stripOneSpace_cons_ne (b : UInt8) (r : List UInt8) (h : b ≠ 32) :
    stripOneSpace (b :: r) = b :: r := by
  unfold stripOneSpace
  split
  · next heq => exact absurd (List.cons.injEq .. ▸ heq).1 h
  · rfl

theorem findThirdColonIdxF_spec (msg : List UInt8) :
    ∀ (fuel i c : ℕ), fuel = msg.length - i → c ≤ 2 →
      (findThirdColonIdxF msg fuel i c).map (fun idx => msg.drop (idx + 1)) =
        (afterNthColon (3 - c) (msg.drop i)).map stripOneSpace := by
  intro fuel
  induction fuel with
  | zero =>
    intro i c hfuel hc
    have hge : msg.length ≤ i := by omega
    rw [List.drop_eq_nil_of_le hge]
    rfl
  | succ f ih =>
    intro i c hfuel hc
    have hi : i < msg.length := by omega
    have hdrop : msg.drop i = msg.getD i 0 :: msg.drop (i + 1) := by
      rw [List.getD_eq_getElem msg 0 hi]
      exact List.drop_eq_getElem_cons hi
    rw [hdrop]
    simp only [findThirdColonIdxF, if_pos hi]
    by_cases hb : msg.getD i 0 = 58
    · rw [if_pos hb]
      by_cases h3 : c + 1 = 3
      · rw [if_pos h3]
        have hc2 : c = 2 := by omega
        subst hc2
        simp only [afterNthColon, if_pos hb]
        rw [if_pos (by omega : 3 - 2 ≤ 1)]
        rw [Option.map_some']
        cases hd2 : msg.drop (i + 1) with
        | nil =>
          have hge2 : msg.length ≤ i + 1 := by
            by_contra hcon
            rw [List.drop_eq_getElem_cons (by omega : i + 1 < msg.length)] at hd2
            exact List.noConfusion hd2
          rw [if_neg (by omega : ¬ (i + 1 < msg.length ∧ msg.getD (i + 1) 0 = 32))]
          rw [hd2]
          rfl
        | cons b2 rest2 =>
          have hlt2 : i + 1 < msg.length := by
            by_contra hcon
            rw [List.drop_eq_nil_of_le (by omega)] at hd2
            exact List.noConfusion hd2
          have hb2 : msg.getD (i + 1) 0 = b2 := by
            rw [List.getD_eq_getElem msg 0 hlt2]
            rw [List.drop_eq_getElem_cons hlt2] at hd2
            exact (List.cons.injEq .. ▸ hd2).1
          by_cases hsp : b2 = 32
          · rw [if_pos ⟨hlt2, by rw [hb2, hsp]⟩]
            have : msg.drop (i + 1 + 1) = rest2 := by
              rw [List.drop_eq_getElem_cons hlt2] at hd2
              exact (List.cons.injEq .. ▸ hd2).2
            rw [this, hsp, Option.map_some']
            rfl
          · rw [if_neg (by
              rintro ⟨-, hcontra⟩
              rw [hb2] at hcontra
              exact hsp hcontra)]
            rw [hd2, Option.map_some', stripOneSpace_cons_ne b2 rest2 hsp]
      · rw [if_neg h3]
        have hstep := ih (i + 1) (c + 1) (by omega) (by omega)
        rw [hstep]
        simp only [afterNthColon, if_pos hb]
        rw [if_neg (by omega : ¬ 3 - c ≤ 1)]
        have : 3 - c - 1 = 3 - (c + 1) := by omega
        rw [this]
    · rw [if_neg hb]
      have hstep := ih (i + 1) c (by omega) hc
      rw [hstep]
      simp only [afterNthColon, if_neg hb]

theorem afterNthColon_count (l : List UInt8) :
    ∀ k : ℕ, 0 < k → l.count 58 < k → afterNthColon k l = none := by
  induction l with
  | nil =>
    intro k _ _
    rfl
  | cons b rest ih =>
    intro k hk hcount
    rw [List.count_cons] at hcount
    unfold afterNthColon
    by_cases hb : b = 58
    · rw [if_pos hb]
      have hb' : (b == 58) = true := by
        rw [hb]
        rfl
      rw [hb'] at hcount
      simp only [if_true] at hcount
      by_cases hk1 : k ≤ 1
      · omega
      · rw [if_neg hk1]
        exact ih (k - 1) (by omega) (by omega)
    · rw [if_neg hb]
      have hb' : (b == 58) = false := by
        simpa using hb
      rw [hb'] at hcount
      exact ih k hk (by simpa using hcount)

/-- C3: for a non-empty datagram whose first byte is `<`, the receive
loop publishes exactly the bytes of the control-character-trimmed
datagram that follow its third `:` byte, additionally skipping one space
immediately after that colon when present; when the trimmed datagram has
fewer than three `:` bytes, nothing is published. -/
theorem syslog_payload_spec (msg : List UInt8) (hne : msg.length ≠ 0)
    (hfirst : msg.getD 0 0 = 60) :
    processDatagram msg =
      (afterNthColon 3 (trimTrailingCtl msg)).map stripOneSpace ∧
    ((trimTrailingCtl msg).count 58 < 3 → processDatagram msg = none) := by
  have hmain : processDatagram msg =
      (afterNthColon 3 (trimTrailingCtl msg)).map stripOneSpace := by
    unfold processDatagram
    rw [if_neg hne, if_neg (fun h => h hfirst)]
    have hspec := findThirdColonIdxF_spec (trimTrailingCtl msg)
      ((trimTrailingCtl msg).length - 0) 0 0 rfl (by omega)
    rw [List.drop_zero] at hspec
    show (match findThirdColonIdx (trimTrailingCtl msg) 0 0 with
      | none => none
      | some idx => some ((trimTrailingCtl msg).drop (idx + 1))) = _
    unfold findThirdColonIdx
    cases hf : findThirdColonIdxF (trimTrailingCtl msg)
        ((trimTrailingCtl msg).length - 0) 0 0 with
    | none =>
      rw [hf] at hspec
      rw [← hspec]
      rfl
    | some idx =>
      rw [hf] at hspec
      rw [← hspec]
      rfl
  refine ⟨hmain, fun hcount => ?_⟩
  rw [hmain, afterNthColon_count (trimTrailingCtl msg) 3 (by omega) hcount]
  rfl

/-- Datagram `<>::: ab` followed by a control byte, used by the syslog
witness. -/
def wMsg : List UInt8 := [60, 62, 58, 58, 58, 32, 97, 98, 1]

theorem syslog_payload_spec_witness :
    processDatagram wMsg =
      (afterNthColon 3 (trimTrailingCtl wMsg)).map stripOneSpace ∧
    processDatagram wMsg = some [97, 98] :=
  ⟨(syslog_payload_spec wMsg (by decide) (by decide)).1, by decide⟩

end AccessLog
